import Mathlib

/-!
Verification of `balutils/stacked_catalogs.py` against its natural-language
specification.  Tables loaded by the catalog classes are embedded as Lean
lists; machine integers become `Int`, row indices become `Nat`, and the
floating-point values flowing through `flux2mag` are embedded as an inductive
`FVal` carrying finite reals, the two infinities and NaN.  Python exceptions
(`ValueError`, `AttributeError`, `KeyError`, `AssertionError`) become an
explicit error type threaded through `Except`.
-/

namespace Balutils

/-- The exceptions the module can raise, by provenance:
`valueError` is the `ValueError` of `_set_gold_colname` (the spec's
`InvalidVariantError`); `attrUnset` is the `AttributeError` raised when the
never-assigned instance attribute `flags_gold_colname` is read;
`missingColumn` is the `AttributeError` raised by `_check_for_cols` (the
spec's `MissingColumnError`); `keyError` is the `KeyError` of the
`_gold_cut_cols[match_type]` dict lookup; `dupIntegrity` is the
`AssertionError` of `_check_for_duplicates` (the spec's
`DuplicateRepairIntegrityError`). -/
inductive Err where
  | valueError
  | attrUnset
  | missingColumn
  | keyError
  | dupIntegrity
  deriving DecidableEq, Repr

/-! ### Generic cut machinery (`Catalog.apply_cut`, `np.where`)

`np.where(mask)` over a boolean mask yields the list of row indices at which
the mask holds, in increasing order; `table[indices]` selects those rows in
order.  `apply_cut` then replaces the table by the selection and recomputes
`Nobjs`. -/

/-- Indices (starting at `n`) of the rows of `t` satisfying `p`:
the semantics of `np.where(p(rows))[0]` with `n = 0`. -/
def whereIdxAux (p : α → Bool) : List α → Nat → List Nat
  | [], _ => []
  | r :: rs, n => if p r then n :: whereIdxAux p rs (n + 1) else whereIdxAux p rs (n + 1)

/-- Model of `np.where` over the boolean mask `p` applied to the rows of `t`. -/
def whereIdx (p : α → Bool) (t : List α) : List Nat :=
  whereIdxAux p t 0

/-- Row selection by an index list: `table[cut]`. -/
def selectRows (t : List α) (cut : List Nat) : List α :=
  cut.filterMap (fun i => t[i]?)

/-- Catalog state: the loaded table `_cat` plus the cached row count
`Nobjs`.  `Nobjs = none` models a Python instance on which the attribute
was never assigned (reading it raises `AttributeError`). -/
structure CatState (α : Type) where
  cat : List α
  Nobjs : Option Nat
  deriving DecidableEq, Repr

/-- Embeds `Catalog.apply_cut` (lines 37-41): `self._cat = self._cat[cut]`
then `self.Nobjs = len(self._cat)`. -/
def apply_cut (s : CatState α) (cut : List Nat) : CatState α :=
  { cat := selectRows s.cat cut, Nobjs := some (selectRows s.cat cut).length }

/-! ### Gold cuts (`GoldCatalog.apply_gold_cuts`)

For the cut-correctness claim a detection row is embedded as the tuple of
the four columns the predicate reads; `flags_gold` stands for whichever of
the three variant columns `flags_gold_colname` selects.  Presence of the
four required columns is by construction of the row type (the
`_check_for_cols` precondition); the column-level model used for the
standalone-`DetectionCatalog` claim keeps the presence check explicit. -/

structure GoldRow where
  flags_foreground : Int
  flags_badregions : Int
  flags_footprint : Int
  flags_gold : Int
  deriving DecidableEq, Repr

/-- The boolean mask of `apply_gold_cuts` (lines 114-118). -/
def goldPred (r : GoldRow) : Bool :=
  (r.flags_foreground == 0) && (r.flags_badregions < 2) &&
  (r.flags_footprint == 1) && (r.flags_gold < 2)

/-- Embeds `GoldCatalog.apply_gold_cuts` on a table whose four required columns are
present: `np.where` of the mask, then `apply_cut`. -/
def apply_gold_cuts (t : List GoldRow) : List GoldRow :=
  selectRows t (whereIdx goldPred t)

/-! ### Duplicate repair (`DetectionCatalog._check_for_duplicates`)

A detection row is a pair of its `bal_id` and the rest of the row.
`np.unique` returns the distinct identifiers with their occurrence counts;
its sorted order is embedded as first-occurrence order (`List.dedup`),
which does not affect the repair: removing the first occurrence of each of
a set of distinct identifiers is order-independent. -/

/-- The `bal_id` column of a detection table. -/
def ids (l : List (Int × α)) : List Int :=
  l.map Prod.fst

/-- The identifiers occurring more than once:
`unq[np.where(unq_cnt > 1)]` (line 164). -/
def dupIds (l : List (Int × α)) : List Int :=
  (ids l).dedup.filter (fun x => 2 ≤ (ids l).count x)

/-- Embeds `self._cat.remove_row(np.where(self._cat['bal_id']==did)[0][0])`
(lines 171-172): remove the first row whose identifier is `d`. -/
def removeFirstById (d : Int) : List (Int × α) → List (Int × α)
  | [] => []
  | r :: rs => if r.1 = d then rs else r :: removeFirstById d rs

/-- Embeds `DetectionCatalog._check_for_duplicates` (lines 150-179): if the number
of distinct identifiers equals the row count, do nothing; otherwise remove
the first occurrence of every duplicated identifier and assert that the new
row count is the old one minus `Ndups = Nobjs - Nunq`.  A failed assertion
is the spec's `DuplicateRepairIntegrityError`. -/
def check_for_duplicates (l : List (Int × α)) : Except Err (List (Int × α)) :=
  let nunq := (ids l).dedup.length
  if nunq = l.length then
    Except.ok l
  else
    let ndups := l.length - nunq
    let r := (dupIds l).foldl (fun acc d => removeFirstById d acc) l
    if r.length = l.length - ndups then Except.ok r else Except.error Err.dupIntegrity

/-- Construction of a `DetectionCatalog` from an already-read table: the
`FitsCatalog._load_catalog` step sets `Nobjs = len(self._cat)` and duplicate
repair re-establishes it after any removal (line 174). -/
def detection_construct (l : List (Int × α)) : Except Err (CatState (Int × α)) :=
  match check_for_duplicates l with
  | Except.ok r => Except.ok { cat := r, Nobjs := some r.length }
  | Except.error e => Except.error e

/-! ### The left join (`BalrogMcalCatalog._join`)

`astropy.table.join(mcal, det, join_type='left')` joins on the columns the
two tables share; in the deployment modelled here the shared column is the
identifier `bal_id`, so a shape row is a pair of its identifier and its
remaining columns, likewise a detection row.  A left join keeps every shape
row: rows with a matching detection identifier are paired with each match,
rows without a match carry masked (null) detection columns, embedded as
`none`.  astropy additionally orders the output by the join key; the claims
settled here are order-independent, so the output keeps left-table order. -/

/-- The output rows a single shape row `m` contributes to the left join:
one row per detection match, or a single null-filled row when no detection
identifier matches. -/
def joinRowsFor (det : List (Int × β)) (m : Int × α) :
    List (Int × α × Option β) :=
  let ms := det.filter (fun d => d.1 == m.1)
  if ms.isEmpty then [(m.1, m.2, none)]
  else ms.map (fun d => (m.1, m.2, some d.2))

/-- Left join of the shape table `mcal` onto the detection table `det` on
the shared identifier (`BalrogMcalCatalog._join`, line 294). -/
def leftJoin (mcal : List (Int × α)) (det : List (Int × β)) :
    List (Int × α × Option β) :=
  mcal.flatMap (joinRowsFor det)

/-! ### Column-level tables and the FITS load path

For the claims about which columns get loaded and about the column-presence
check, a table is embedded column-wise: a list of (column name, column data)
pairs, names as lists of characters. -/

/-- A column name. -/
abbrev ColName := List Char

/-- A column-oriented table: named columns of integer data. -/
abbrev ColTable := List (ColName × List Int)

/-- The column names of a table (`self._cat.colnames`). -/
def colnames (t : ColTable) : List ColName :=
  t.map Prod.fst

/-- Column lookup (`self._cat[col]`); `none` is astropy's `KeyError`. -/
def getColumn (t : ColTable) (n : ColName) : Option (List Int) :=
  (t.find? (fun c => c.1 == n)).map (fun c => c.2)

/-- Model of `len(table)` on a column-oriented astropy table: the common length of
its columns (0 for the empty table). -/
def tableLen (t : ColTable) : Nat :=
  match t with
  | [] => 0
  | c :: _ => c.2.length

/-- Embeds `fitsio.read(filename, columns=cols)`: the whole file when
`cols is None`, otherwise only the requested columns. -/
def fitsRead (file : ColTable) (cols : Option (List ColName)) : ColTable :=
  match cols with
  | none => file
  | some cs => file.filter (fun c => cs.contains c.1)

/-- Embeds `Catalog.__init__` (lines 21-23): it stores the `cols` argument. -/
def catalogStoredCols (cols : Option (List ColName)) : Option (List ColName) :=
  cols

/-- Embeds `GoldCatalog.__init__` (lines 96-98): calls
`Catalog.__init__(filename, cols=None)`, passing the literal `None` in place
of its own `cols` argument. -/
def goldCatalogStoredCols (_cols : Option (List ColName)) : Option (List ColName) :=
  catalogStoredCols none

/-- The `cols` attribute after `DetectionCatalog.__init__` (line 143):
`super().__init__` reaches `GoldCatalog.__init__` (`FitsCatalog` defines no
initializer), which discards the subset. -/
def detectionStoredCols (cols : Option (List ColName)) : Option (List ColName) :=
  goldCatalogStoredCols cols

/-- The table a `DetectionCatalog` ends up loading:
`FitsCatalog._load_catalog` (line 127) reads the file with the stored
`cols` attribute. -/
def detectionLoadedTable (file : ColTable) (cols : Option (List ColName)) : ColTable :=
  fitsRead file (detectionStoredCols cols)

/-- Embeds `FitsCatalog._load_catalog` (lines 126-130) as a state builder:
read the file, wrap as the table, set `Nobjs = len(self._cat)`. -/
def fits_load_catalog (file : ColTable) (cols : Option (List ColName)) :
    CatState (ColName × List Int) :=
  { cat := fitsRead file cols, Nobjs := some (fitsRead file cols).length }

/-! ### Gold-variant configuration and the joined catalog -/

/-- Embeds `GoldCatalog._set_gold_colname` (lines 100-110): map the three variants
to their flag-column names, `ValueError` otherwise. -/
def set_gold_colname (match_type : ColName) : Except Err ColName :=
  if match_type = "default".toList then Except.ok "meas_FLAGS_GOLD".toList
  else if match_type = "mof_only".toList then Except.ok "meas_FLAGS_GOLD_MOF_ONLY".toList
  else if match_type = "sof_only".toList then Except.ok "meas_FLAGS_GOLD_SOF_ONLY".toList
  else Except.error Err.valueError

/-- State of a `BalrogMcalCatalog` after `__init__`. -/
structure BalrogState (α β : Type) where
  flags_gold_colname : ColName
  cat : List (Int × α × Option β)
  Nobjs : Option Nat
  deriving DecidableEq, Repr

/-- Embeds `BalrogMcalCatalog.__init__` (lines 260-277) over already-loaded shape
and detection tables: `_set_gold_colname(match_type)` runs first (an invalid
variant aborts before any load), then `_load_catalog` joins the two tables
(lines 279-303).  Neither `_load_catalog` nor `_join` assigns `Nobjs`. -/
def balrogMcalInit (match_type : ColName) (mcal : List (Int × α))
    (det : List (Int × β)) : Except Err (BalrogState α β) :=
  match set_gold_colname match_type with
  | Except.error e => Except.error e
  | Except.ok g =>
      Except.ok { flags_gold_colname := g, cat := leftJoin mcal det, Nobjs := none }

/-! ### `apply_gold_cuts` on a standalone `DetectionCatalog`

Here the table is kept column-oriented so that the `_check_for_cols`
presence check and the `flags_gold_colname` attribute read happen in source
order.  `DetectionCatalog.__init__` (lines 142-148) stores `match_type` but
never calls `_set_gold_colname` (nor does `GoldCatalog.__init__`), so the
`flags_gold_colname` attribute is never assigned. -/

/-- The three `_gold_cut_cols` class-attribute lists (lines 75-94). -/
def gold_cut_cols (match_type : ColName) : Option (List ColName) :=
  if match_type = "default".toList then
    some ["flags_foreground".toList, "flags_badregions".toList,
          "flags_footprint".toList, "meas_FLAGS_GOLD".toList]
  else if match_type = "mof_only".toList then
    some ["flags_foreground".toList, "flags_badregions".toList,
          "flags_footprint".toList, "meas_FLAGS_GOLD_MOF_ONLY".toList]
  else if match_type = "sof_only".toList then
    some ["flags_foreground".toList, "flags_badregions".toList,
          "flags_footprint".toList, "meas_FLAGS_GOLD_SOF_ONLY".toList]
  else none

/-- Embeds `Catalog._check_for_cols` (lines 46-52) as a boolean: every required
column name occurs in the table. -/
def check_for_cols (t : ColTable) (cols : List ColName) : Bool :=
  cols.all (fun c => (colnames t).contains c)

/-- State of a `DetectionCatalog` right after its own `__init__`:
`match_type` stored (line 144), `flags_gold_colname` never assigned. -/
structure DetState where
  match_type : ColName
  flags_gold_colname : Option ColName
  cat : ColTable
  deriving DecidableEq, Repr

/-- Embeds `DetectionCatalog.__init__` on an already-loaded (and repaired) table. -/
def detectionInit (t : ColTable) (match_type : ColName) : DetState :=
  { match_type := match_type, flags_gold_colname := none, cat := t }

/-- Embeds `GoldCatalog.apply_gold_cuts` (lines 112-121) on the column-level
state: look up `_gold_cut_cols[self.match_type]` (`KeyError` on an unknown
variant), check the required columns, read the four columns — reading
`self.flags_gold_colname` raises `AttributeError` when the attribute was
never assigned — and apply the `np.where` mask. -/
def apply_gold_cuts_det (s : DetState) : Except Err DetState :=
  match gold_cut_cols s.match_type with
  | none => Except.error Err.keyError
  | some req =>
    if check_for_cols s.cat req then
      match s.flags_gold_colname with
      | none => Except.error Err.attrUnset
      | some g =>
        match getColumn s.cat "flags_foreground".toList,
              getColumn s.cat "flags_badregions".toList,
              getColumn s.cat "flags_footprint".toList,
              getColumn s.cat g with
        | some c1, some c2, some c3, some c4 =>
            let idxs := (List.range (tableLen s.cat)).filter (fun i =>
              (c1.getD i 0 == 0) && (c2.getD i 0 < 2) &&
              (c3.getD i 0 == 1) && (c4.getD i 0 < 2))
            Except.ok { s with cat := s.cat.map (fun c => (c.1, selectRows c.2 idxs)) }
        | _, _, _, _ => Except.error Err.keyError
    else Except.error Err.missingColumn

/-! ### `flux2mag` (`Catalog.flux2mag`, lines 33-35)

`-2.5 * np.log10(flux) + zp` over IEEE floating point: `log10` of a
positive flux is finite, `log10(0)` is `-inf`, `log10` of a negative flux
is NaN; the affine map sends `-inf` to `+inf` and NaN to NaN.  The value
domain is embedded exactly: a finite real, the two infinities, or NaN.
No branch raises. -/

inductive FVal where
  | fin : ℝ → FVal
  | pinf
  | ninf
  | nan

/-- Whether a floating-point value is finite. -/
def FVal.isFinite : FVal → Bool
  | FVal.fin _ => true
  | _ => false

/-- Model of `np.log10` on a real input. -/
noncomputable def log10 (x : ℝ) : FVal :=
  if 0 < x then FVal.fin (Real.logb 10 x)
  else if x = 0 then FVal.ninf
  else FVal.nan

/-- Multiplication by the real constant `c` (IEEE: `0 * inf = nan`). -/
noncomputable def FVal.constMul (c : ℝ) : FVal → FVal
  | FVal.fin x => FVal.fin (c * x)
  | FVal.pinf => if 0 < c then FVal.pinf else if c < 0 then FVal.ninf else FVal.nan
  | FVal.ninf => if 0 < c then FVal.ninf else if c < 0 then FVal.pinf else FVal.nan
  | FVal.nan => FVal.nan

/-- Addition of the real constant `c`. -/
noncomputable def FVal.addConst (c : ℝ) : FVal → FVal
  | FVal.fin x => FVal.fin (x + c)
  | v => v

/-- Embeds `Catalog.flux2mag(flux, zp)`: `-2.5 * np.log10(flux) + zp`. -/
noncomputable def flux2mag (flux zp : ℝ) : FVal :=
  FVal.addConst zp (FVal.constMul (-2.5) (log10 flux))

/-- Evaluation of `flux2mag` at its default zero point `zp=30.`. -/
noncomputable def flux2magDefault (flux : ℝ) : FVal :=
  flux2mag flux 30

/-! ### `calc_mags` (`McalCatalog.calc_mags`, lines 234-245)

An Mcal table is embedded column-wise with floating-point cells.
`np.log10` lifted to a float input: `log10(+inf) = +inf`,
`log10(-inf) = log10(nan) = nan`. -/

/-- Model of `np.log10` on a floating-point input. -/
noncomputable def FVal.log10v : FVal → FVal
  | FVal.fin x => log10 x
  | FVal.pinf => FVal.pinf
  | _ => FVal.nan

/-- Lift of `flux2mag` to an elementwise cell transformation at the default zero point. -/
noncomputable def flux2magF (v : FVal) : FVal :=
  FVal.addConst 30 (FVal.constMul (-2.5) v.log10v)

/-- An Mcal table: named columns of floating-point data. -/
abbrev MTable := List (ColName × List FVal)

/-- The column names of an Mcal table. -/
def mcolnames (t : MTable) : List ColName :=
  t.map Prod.fst

/-- Column lookup on an Mcal table. -/
def mgetColumn (t : MTable) (n : ColName) : Option (List FVal) :=
  (t.find? (fun c => c.1 == n)).map (fun c => c.2)

/-- Embeds `self._cat[name] = v`: overwrite the column when present, append it
otherwise. -/
def setColumn (t : MTable) (n : ColName) (v : List FVal) : MTable :=
  if t.any (fun c => c.1 == n) then
    t.map (fun c => if c.1 == n then (n, v) else c)
  else t ++ [(n, v)]

/-- Contiguous-substring test: whether `sub` occurs inside the second
list. -/
def hasSubstr (sub : List Char) : List Char → Bool
  | [] => sub.isEmpty
  | c :: rest => sub.isPrefixOf (c :: rest) || hasSubstr sub rest

/-- Embeds the Python membership test of the substring flux in the
lowercased column name. -/
def hasFluxSub (c : ColName) : Bool :=
  hasSubstr "flux".toList (c.map Char.toLower)

/-- Builds the column name flux_<band>. -/
def fluxKey (b : Char) : ColName :=
  "flux_".toList ++ [b]

/-- Builds the column name mag_<band>. -/
def magKey (b : Char) : ColName :=
  "mag_".toList ++ [b]

/-- `McalCatalog.calc_mags` (lines 234-245): collect the column names
containing `'flux'` case-insensitively, take the last character of each as
its band, and for each band set `mag_<band>` to `flux2mag` of the
`flux_<band>` column.  `none` models the `KeyError` of a `flux_<band>`
lookup that misses. -/
noncomputable def calc_mags (t : MTable) : Option MTable :=
  let fluxes := (mcolnames t).filter hasFluxSub
  let bands := fluxes.map (fun f => f.getLastD 'a')
  bands.foldlM
    (fun acc b =>
      (mgetColumn acc (fluxKey b)).map
        (fun col => setColumn acc (magKey b) (col.map flux2magF)))
    t

/-! ## Lemmas and claim theorems -/

theorem whereIdxAux_succ (p : α → Bool) (t : List α) :
    ∀ n : Nat, whereIdxAux p t (n + 1) = (whereIdxAux p t n).map Nat.succ := by
  induction t with
  | nil => intro n; simp [whereIdxAux]
  | cons r rs ih =>
    intro n
    cases hp : p r with
    | true => simp [whereIdxAux, hp, ih (n + 1)]
    | false => simp [whereIdxAux, hp, ih (n + 1)]

theorem selectRows_map_succ (r : α) (rs : List α) (idxs : List Nat) :
    selectRows (r :: rs) (idxs.map Nat.succ) = selectRows rs idxs := by
  induction idxs with
  | nil => rfl
  | cons i is ih =>
    simp only [selectRows, List.map_cons, List.filterMap_cons] at ih ⊢
    rw [List.getElem?_cons_succ, ih]

/-- Applying `np.where` followed by row selection is list filtering. -/
theorem selectRows_whereIdx (p : α → Bool) (t : List α) :
    selectRows t (whereIdx p t) = t.filter p := by
  induction t with
  | nil => rfl
  | cons r rs ih =>
    rw [whereIdx, whereIdxAux, whereIdxAux_succ]
    cases hp : p r with
    | true =>
      simp only [if_true]
      rw [selectRows, List.filterMap_cons]
      simp only [List.getElem?_cons_zero]
      rw [show List.filterMap (fun i => (r :: rs)[i]?)
            ((whereIdxAux p rs 0).map Nat.succ) =
          selectRows (r :: rs) ((whereIdx p rs).map Nat.succ) from rfl]
      rw [selectRows_map_succ, ih, List.filter_cons_of_pos hp]
    | false =>
      simp only [Bool.false_eq_true, if_false]
      rw [show selectRows (r :: rs) ((whereIdxAux p rs 0).map Nat.succ) =
          selectRows (r :: rs) ((whereIdx p rs).map Nat.succ) from rfl]
      rw [selectRows_map_succ, ih, List.filter_cons_of_neg (by simp [hp])]

theorem apply_gold_cuts_eq_filter (t : List GoldRow) :
    apply_gold_cuts t = t.filter goldPred :=
  selectRows_whereIdx goldPred t

theorem goldPred_iff (r : GoldRow) :
    goldPred r = true ↔
      (r.flags_foreground = 0 ∧ r.flags_badregions < 2 ∧
       r.flags_footprint = 1 ∧ r.flags_gold < 2) := by
  simp [goldPred, and_assoc]

/-- C3: after `apply_gold_cuts()`, every remaining row satisfies
`flags_foreground == 0 AND flags_badregions < 2 AND flags_footprint == 1
AND <gold_flag_column> < 2`, and every removed row fails at least one of
the four conjuncts.  The four required columns are present by construction
of `GoldRow`. -/
theorem apply_gold_cuts_correct (t : List GoldRow) :
    (∀ r ∈ apply_gold_cuts t,
        r.flags_foreground = 0 ∧ r.flags_badregions < 2 ∧
        r.flags_footprint = 1 ∧ r.flags_gold < 2) ∧
    (∀ r ∈ t, r ∉ apply_gold_cuts t →
        ¬(r.flags_foreground = 0 ∧ r.flags_badregions < 2 ∧
          r.flags_footprint = 1 ∧ r.flags_gold < 2)) := by
  constructor
  · intro r hr
    rw [apply_gold_cuts_eq_filter, List.mem_filter] at hr
    exact (goldPred_iff r).mp hr.2
  · intro r hrt hrn hprop
    exact hrn (by
      rw [apply_gold_cuts_eq_filter, List.mem_filter]
      exact ⟨hrt, (goldPred_iff r).mpr hprop⟩)

/-- Witness for C3 on the two-row table `[⟨0,1,1,0⟩, ⟨1,0,1,0⟩]`: the first
row survives the cut and satisfies all four conjuncts, the second is removed
and fails one. -/
theorem apply_gold_cuts_correct_witness :
    ((GoldRow.mk 0 1 1 0).flags_foreground = 0 ∧
     (GoldRow.mk 0 1 1 0).flags_badregions < 2 ∧
     (GoldRow.mk 0 1 1 0).flags_footprint = 1 ∧
     (GoldRow.mk 0 1 1 0).flags_gold < 2) ∧
    ¬((GoldRow.mk 1 0 1 0).flags_foreground = 0 ∧
      (GoldRow.mk 1 0 1 0).flags_badregions < 2 ∧
      (GoldRow.mk 1 0 1 0).flags_footprint = 1 ∧
      (GoldRow.mk 1 0 1 0).flags_gold < 2) :=
  ⟨(apply_gold_cuts_correct [GoldRow.mk 0 1 1 0, GoldRow.mk 1 0 1 0]).1
      (GoldRow.mk 0 1 1 0) (by decide),
   (apply_gold_cuts_correct [GoldRow.mk 0 1 1 0, GoldRow.mk 1 0 1 0]).2
      (GoldRow.mk 1 0 1 0) (by decide) (by decide)⟩

/-- C5 (amended): `Nobjs = len(table)` after every `apply_cut`, after a
`FitsCatalog` load, and after `DetectionCatalog` duplicate repair.
(`BalrogMcalCatalog.__init__` is the exception: it never assigns `Nobjs`,
see the counterexample.) -/
theorem row_count_invariant :
    (∀ (α : Type) (s : CatState α) (cut : List Nat),
        (apply_cut s cut).Nobjs = some (apply_cut s cut).cat.length) ∧
    (∀ (file : ColTable) (cols : Option (List ColName)),
        (fits_load_catalog file cols).Nobjs =
          some (fits_load_catalog file cols).cat.length) ∧
    (∀ (α : Type) (l : List (Int × α)) (s : CatState (Int × α)),
        detection_construct l = Except.ok s → s.Nobjs = some s.cat.length) := by
  refine ⟨fun α s cut => rfl, fun file cols => rfl, fun α l s h => ?_⟩
  unfold detection_construct at h
  cases hc : check_for_duplicates l with
  | ok r => rw [hc] at h; cases h; rfl
  | error e => rw [hc] at h; cases h

/-- Witness for C5 (amended) at a one-row detection table. -/
theorem row_count_invariant_witness :
    (CatState.mk [((1 : Int), (10 : Nat))] (some 1)).Nobjs =
      some (CatState.mk [((1 : Int), (10 : Nat))] (some 1)).cat.length :=
  row_count_invariant.2.2 Nat [((1 : Int), (10 : Nat))]
    (CatState.mk [((1 : Int), (10 : Nat))] (some 1)) rfl

/-- Counterexample to C5 as stated: immediately after
`BalrogMcalCatalog.__init__` (construction/load), `Nobjs` was never
assigned (reading it raises `AttributeError`), so it does not equal the
length of the joined table. -/
theorem balrog_init_leaves_Nobjs_unset :
    ∃ s : BalrogState Nat Bool,
      balrogMcalInit "default".toList [(1, 10), (2, 20)] [(1, true)] =
        Except.ok s ∧
      s.Nobjs = none ∧ s.cat.length = 2 ∧ s.Nobjs ≠ some s.cat.length := by
  refine ⟨BalrogState.mk "meas_FLAGS_GOLD".toList
      [(1, 10, some true), (2, 20, none)] none, rfl, rfl, rfl, by decide⟩

/-- C6: the bug at the failing input.  `DetectionCatalog('det.fits',
cols=['bal_id'])` on a file with columns `['bal_id', 'x']` loads both
columns: `GoldCatalog.__init__` passes `cols=None` to `Catalog.__init__`,
discarding the requested subset, so `fitsio.read` receives `columns=None`
and reads everything. -/
theorem detection_load_ignores_requested_cols :
    colnames (detectionLoadedTable
        [("bal_id".toList, [1, 2]), ("x".toList, [3, 4])]
        (some ["bal_id".toList])) = ["bal_id".toList, "x".toList] ∧
    colnames (detectionLoadedTable
        [("bal_id".toList, [1, 2]), ("x".toList, [3, 4])]
        (some ["bal_id".toList])) ≠ ["bal_id".toList] := by
  constructor
  · rfl
  · decide

/-- C7: `_set_gold_colname` maps the three variants to their concrete
column names and raises `ValueError` (the spec's `InvalidVariantError`) on
anything else; in `BalrogMcalCatalog.__init__` this happens before
`_load_catalog`, so an invalid variant aborts the whole construction
whatever the tables hold. -/
theorem set_gold_colname_spec :
    set_gold_colname "default".toList = Except.ok "meas_FLAGS_GOLD".toList ∧
    set_gold_colname "mof_only".toList =
      Except.ok "meas_FLAGS_GOLD_MOF_ONLY".toList ∧
    set_gold_colname "sof_only".toList =
      Except.ok "meas_FLAGS_GOLD_SOF_ONLY".toList ∧
    ∀ mt : ColName, mt ≠ "default".toList → mt ≠ "mof_only".toList →
      mt ≠ "sof_only".toList →
      set_gold_colname mt = Except.error Err.valueError ∧
      ∀ (α β : Type) (mcal : List (Int × α)) (det : List (Int × β)),
        balrogMcalInit mt mcal det = Except.error Err.valueError := by
  refine ⟨rfl, rfl, rfl, fun mt h1 h2 h3 => ?_⟩
  have hset : set_gold_colname mt = Except.error Err.valueError := by
    unfold set_gold_colname
    rw [if_neg h1, if_neg h2, if_neg h3]
  exact ⟨hset, fun α β mcal det => by unfold balrogMcalInit; rw [hset]⟩

/-- Witness for C7 at the invalid variant `"bad"`. -/
theorem set_gold_colname_spec_witness :
    set_gold_colname "bad".toList = Except.error Err.valueError ∧
    balrogMcalInit "bad".toList [((1 : Int), (0 : Nat))] [((1 : Int), true)] =
      Except.error Err.valueError :=
  ⟨(set_gold_colname_spec.2.2.2 "bad".toList (by decide) (by decide) (by decide)).1,
   (set_gold_colname_spec.2.2.2 "bad".toList (by decide) (by decide) (by decide)).2
      Nat Bool [((1 : Int), (0 : Nat))] [((1 : Int), true)]⟩

/-! ### C10: the gold cut on a standalone `DetectionCatalog` -/

/-- C10: `apply_gold_cuts` on a `DetectionCatalog` built by its own
initializer raises no matter what the table holds, and in particular when
all four required columns are present (and the stored variant is valid) the
failure is precisely the read of the never-assigned `flags_gold_colname`
attribute. -/
theorem det_apply_gold_cuts_always_fails (t : ColTable) (mt : ColName) :
    (∃ e, apply_gold_cuts_det (detectionInit t mt) = Except.error e) ∧
    (∀ req, gold_cut_cols mt = some req → check_for_cols t req = true →
        apply_gold_cuts_det (detectionInit t mt) = Except.error Err.attrUnset) := by
  constructor
  · cases hg : gold_cut_cols mt with
    | none =>
        exact ⟨Err.keyError, by simp [apply_gold_cuts_det, detectionInit, hg]⟩
    | some req =>
        cases hc : check_for_cols t req with
        | true =>
            exact ⟨Err.attrUnset, by simp [apply_gold_cuts_det, detectionInit, hg, hc]⟩
        | false =>
            exact ⟨Err.missingColumn, by simp [apply_gold_cuts_det, detectionInit, hg, hc]⟩
  · intro req hreq hc
    simp [apply_gold_cuts_det, detectionInit, hreq, hc]

/-- Witness for C10: a table carrying all four required gold columns still
fails, with the `AttributeError` of the unset `flags_gold_colname`. -/
theorem det_apply_gold_cuts_always_fails_witness :
    apply_gold_cuts_det (detectionInit
        [("flags_foreground".toList, [0, 1]), ("flags_badregions".toList, [0, 0]),
         ("flags_footprint".toList, [1, 1]), ("meas_FLAGS_GOLD".toList, [0, 0])]
        "default".toList) = Except.error Err.attrUnset :=
  (det_apply_gold_cuts_always_fails
      [("flags_foreground".toList, [0, 1]), ("flags_badregions".toList, [0, 0]),
       ("flags_footprint".toList, [1, 1]), ("meas_FLAGS_GOLD".toList, [0, 0])]
      "default".toList).2
    ["flags_foreground".toList, "flags_badregions".toList,
     "flags_footprint".toList, "meas_FLAGS_GOLD".toList]
    rfl (by decide)

/-! ### C8: `flux2mag` -/

/-- C8: for positive flux, `flux2mag` is exactly
`-2.5 * log10(flux) + zero_point`; for non-positive flux the result is
non-finite (`+inf` at zero, NaN below) rather than an exception — the
function is total; and the default zero point is `30.0`. -/
theorem flux2mag_spec (f zp : ℝ) :
    (0 < f → flux2mag f zp = FVal.fin (-2.5 * Real.logb 10 f + zp)) ∧
    (f ≤ 0 → (flux2mag f zp).isFinite = false) ∧
    flux2magDefault f = flux2mag f 30 := by
  refine ⟨fun h => ?_, fun h => ?_, rfl⟩
  · simp [flux2mag, log10, FVal.constMul, FVal.addConst, h]
  · rcases lt_or_eq_of_le h with hlt | heq
    · have h0 : ¬(0 < f) := not_lt.mpr h
      have hne : f ≠ 0 := ne_of_lt hlt
      simp [flux2mag, log10, FVal.constMul, FVal.addConst, FVal.isFinite, h0, hne]
    · subst heq
      have h1 : ¬(0 : ℝ) < 0 := lt_irrefl 0
      have h2 : ¬(0 : ℝ) < -2.5 := by norm_num
      have h3 : (-2.5 : ℝ) < 0 := by norm_num
      simp [flux2mag, log10, FVal.constMul, FVal.addConst, FVal.isFinite, h1, h2, h3]

/-- Witness for C8 at flux `100` (zero point `7`) and at flux `0`. -/
theorem flux2mag_spec_witness :
    flux2mag 100 7 = FVal.fin (-2.5 * Real.logb 10 100 + 7) ∧
    (flux2mag 0 30).isFinite = false :=
  ⟨(flux2mag_spec 100 7).1 (by norm_num), (flux2mag_spec 0 30).2.1 le_rfl⟩

/-! ### C4: left-join cardinality and null filling -/

theorem filter_key_length (det : List (Int × β)) (k : Int) :
    (det.filter (fun d => d.1 == k)).length = (det.map Prod.fst).count k := by
  induction det with
  | nil => rfl
  | cons d ds ih =>
    by_cases h : d.1 = k
    · simp [List.filter_cons, List.count_cons, h, ih]
    · simp [List.filter_cons, List.count_cons, h, ih]

theorem joinRowsFor_length (det : List (Int × β))
    (hdet : (det.map Prod.fst).Nodup) (m : Int × α) :
    (joinRowsFor det m).length = 1 := by
  simp only [joinRowsFor]
  split
  · rfl
  · next hms =>
    have hne : det.filter (fun d => d.1 == m.1) ≠ [] := by
      intro hnil
      exact hms (by rw [hnil]; rfl)
    have hpos : 0 < (det.filter (fun d => d.1 == m.1)).length :=
      List.length_pos.mpr hne
    have hle : (det.map Prod.fst).count m.1 ≤ 1 :=
      List.nodup_iff_count_le_one.mp hdet m.1
    rw [filter_key_length] at hpos
    rw [List.length_map, filter_key_length]
    omega

theorem joinRowsFor_mem (det : List (Int × β)) (m : Int × α)
    (e : Int × α × Option β) (he : e ∈ joinRowsFor det m) :
    e.1 = m.1 ∧ (e.2.2 = none ↔ e.1 ∉ det.map Prod.fst) := by
  simp only [joinRowsFor] at he
  split at he
  · next hms =>
    simp only [List.mem_singleton] at he
    subst he
    have hnil : det.filter (fun d => d.1 == m.1) = [] := List.isEmpty_iff.mp hms
    have hnot : m.1 ∉ det.map Prod.fst := by
      intro hmem
      rcases List.mem_map.mp hmem with ⟨d, hd, hfst⟩
      have := List.filter_eq_nil_iff.mp hnil d hd
      simp [hfst] at this
    exact ⟨rfl, by simpa using hnot⟩
  · next hms =>
    simp only [List.mem_map] at he
    rcases he with ⟨d, hd, hde⟩
    have hdmem := List.mem_filter.mp hd
    have hdk : d.1 = m.1 := by simpa using hdmem.2
    subst hde
    refine ⟨rfl, ?_⟩
    simp only []
    constructor
    · intro hcontra; cases hcontra
    · intro hnot
      exact absurd (List.mem_map.mpr ⟨d, hdmem.1, hdk⟩) hnot

/-- C4: with distinct detection identifiers (the state duplicate repair
restores), the left join keeps exactly one output row per shape row —
cardinality equals the shape table's — and an output row carries null
detection columns exactly when its identifier has no detection match. -/
theorem leftJoin_cardinality (mcal : List (Int × α)) (det : List (Int × β))
    (hdet : (det.map Prod.fst).Nodup) :
    (leftJoin mcal det).length = mcal.length ∧
    ∀ e ∈ leftJoin mcal det, (e.2.2 = none ↔ e.1 ∉ det.map Prod.fst) := by
  constructor
  · induction mcal with
    | nil => rfl
    | cons m ms ih =>
      rw [leftJoin, List.flatMap_cons, List.length_append,
        joinRowsFor_length det hdet m]
      rw [leftJoin] at ih
      rw [ih, List.length_cons, Nat.add_comm]
  · intro e he
    rcases List.mem_flatMap.mp he with ⟨m, _, hem⟩
    exact (joinRowsFor_mem det m e hem).2

/-- Witness for C4: a 5-row shape table against a 3-row detection table
with exactly the 3 detection identifiers matching yields 5 output rows, of
which the 2 unmatched ones — and only those — are null-filled. -/
theorem leftJoin_cardinality_witness :
    (leftJoin [((1 : Int), (10 : Nat)), (2, 20), (3, 30), (4, 40), (5, 50)]
        [((1 : Int), true), (2, false), (3, true)]).length = 5 ∧
    (((4 : Int), (40 : Nat), (none : Option Bool)).2.2 = none ↔
      ((4 : Int), (40 : Nat), (none : Option Bool)).1 ∉
        ([((1 : Int), true), (2, false), (3, true)]).map Prod.fst) ∧
    ((leftJoin [((1 : Int), (10 : Nat)), (2, 20), (3, 30), (4, 40), (5, 50)]
        [((1 : Int), true), (2, false), (3, true)]).filter
          (fun e => e.2.2.isNone)).length = 2 :=
  ⟨(leftJoin_cardinality
      [((1 : Int), (10 : Nat)), (2, 20), (3, 30), (4, 40), (5, 50)]
      [((1 : Int), true), (2, false), (3, true)] (by decide)).1,
   (leftJoin_cardinality
      [((1 : Int), (10 : Nat)), (2, 20), (3, 30), (4, 40), (5, 50)]
      [((1 : Int), true), (2, false), (3, true)] (by decide)).2
      ((4 : Int), (40 : Nat), (none : Option Bool)) (by decide),
   by decide⟩

/-! ### C1, C2: duplicate repair -/

theorem ids_removeFirstById (d : Int) (l : List (Int × α)) :
    ids (removeFirstById d l) = (ids l).erase d := by
  induction l with
  | nil => rfl
  | cons r rs ih =>
    by_cases h : r.1 = d
    · rw [removeFirstById, if_pos h]
      show List.map Prod.fst rs = (List.map Prod.fst (r :: rs)).erase d
      rw [List.map_cons, h, List.erase_cons_head]
    · rw [removeFirstById, if_neg h]
      show List.map Prod.fst (r :: removeFirstById d rs) =
        (List.map Prod.fst (r :: rs)).erase d
      rw [List.map_cons, List.map_cons,
        List.erase_cons_tail (by simpa using h)]
      exact congrArg (r.1 :: ·) ih

theorem removeFirstById_sublist (d : Int) (l : List (Int × α)) :
    (removeFirstById d l).Sublist l := by
  induction l with
  | nil => exact List.Sublist.refl []
  | cons r rs ih =>
    by_cases h : r.1 = d
    · rw [removeFirstById, if_pos h]
      exact List.sublist_cons_self r rs
    · rw [removeFirstById, if_neg h]
      exact ih.cons₂ r

theorem foldl_removeFirstById_sublist (ds : List Int) (l : List (Int × α)) :
    (ds.foldl (fun acc d => removeFirstById d acc) l).Sublist l := by
  induction ds generalizing l with
  | nil => exact List.Sublist.refl l
  | cons d ds ih =>
    exact ((ih (removeFirstById d l)).trans (removeFirstById_sublist d l))

theorem ids_foldl_removeFirstById (ds : List Int) (l : List (Int × α)) :
    ids (ds.foldl (fun acc d => removeFirstById d acc) l) =
      ds.foldl List.erase (ids l) := by
  induction ds generalizing l with
  | nil => rfl
  | cons d ds ih =>
    rw [List.foldl_cons, List.foldl_cons, ih, ids_removeFirstById]

theorem count_foldl_erase (ds : List Int) :
    ∀ L : List Int, ds.Nodup → ∀ x : Int,
      (ds.foldl List.erase L).count x =
        L.count x - (if x ∈ ds then 1 else 0) := by
  induction ds with
  | nil => intro L _ x; simp
  | cons d ds ih =>
    intro L hnd x
    rw [List.foldl_cons]
    have hnd' := List.nodup_cons.mp hnd
    rw [ih (L.erase d) hnd'.2 x]
    by_cases hxd : x = d
    · subst hxd
      have hnotin : x ∉ ds := hnd'.1
      simp [hnotin, List.count_erase_self]
    · rw [List.count_erase_of_ne hxd]
      by_cases hxds : x ∈ ds
      · simp [hxds, hxd]
      · simp [hxds, hxd]

theorem length_foldl_erase (ds : List Int) :
    ∀ L : List Int, ds.Nodup → (∀ d ∈ ds, d ∈ L) →
      (ds.foldl List.erase L).length = L.length - ds.length := by
  induction ds with
  | nil => intro L _ _; simp
  | cons d ds ih =>
    intro L hnd hmem
    rw [List.foldl_cons]
    have hnd' := List.nodup_cons.mp hnd
    have hdL : d ∈ L := hmem d (List.mem_cons_self d ds)
    have hmem' : ∀ e ∈ ds, e ∈ L.erase d := by
      intro e he
      have hne : e ≠ d := fun h => hnd'.1 (h ▸ he)
      exact (List.mem_erase_of_ne hne).mpr (hmem e (List.mem_cons_of_mem d he))
    rw [ih (L.erase d) hnd'.2 hmem', List.length_erase_of_mem hdL,
      List.length_cons]
    omega

theorem mem_dupIds {l : List (Int × α)} {x : Int} :
    x ∈ dupIds l ↔ x ∈ ids l ∧ 2 ≤ (ids l).count x := by
  simp [dupIds, List.mem_filter, List.mem_dedup]

theorem dupIds_nodup (l : List (Int × α)) : (dupIds l).Nodup :=
  (List.nodup_dedup (ids l)).filter _

theorem filter_removeFirstById_self (d : Int) (l : List (Int × α)) :
    (removeFirstById d l).filter (fun p => p.1 == d) =
      (l.filter (fun p => p.1 == d)).tail := by
  induction l with
  | nil => rfl
  | cons r rs ih =>
    by_cases h : r.1 = d
    · rw [removeFirstById, if_pos h, List.filter_cons, if_pos (by simpa using h)]
      rfl
    · rw [removeFirstById, if_neg h, List.filter_cons, if_neg (by simpa using h),
        List.filter_cons, if_neg (by simpa using h), ih]

theorem filter_removeFirstById_ne (d e : Int) (hne : e ≠ d) (l : List (Int × α)) :
    (removeFirstById d l).filter (fun p => p.1 == e) =
      l.filter (fun p => p.1 == e) := by
  induction l with
  | nil => rfl
  | cons r rs ih =>
    by_cases h : r.1 = d
    · rw [removeFirstById, if_pos h, List.filter_cons,
        if_neg (by simp [h]; exact fun hc => hne hc.symm)]
    · rw [removeFirstById, if_neg h, List.filter_cons, List.filter_cons, ih]

theorem filter_foldl_removeFirstById_ne (ds : List Int) (l : List (Int × α))
    (e : Int) (he : e ∉ ds) :
    ((ds.foldl (fun acc d => removeFirstById d acc) l).filter
        (fun p => p.1 == e)) =
      l.filter (fun p => p.1 == e) := by
  induction ds generalizing l with
  | nil => rfl
  | cons d ds ih =>
    rw [List.foldl_cons]
    have hne : e ≠ d := fun h => he (h ▸ List.mem_cons_self d ds)
    rw [ih (removeFirstById d l) (fun h => he (List.mem_cons_of_mem d h)),
      filter_removeFirstById_ne d e hne]

theorem filter_foldl_removeFirstById_dup (ds : List Int) (hnd : ds.Nodup)
    (l : List (Int × α)) (d : Int) (hd : d ∈ ds) :
    ((ds.foldl (fun acc d => removeFirstById d acc) l).filter
        (fun p => p.1 == d)) =
      (l.filter (fun p => p.1 == d)).tail := by
  induction ds generalizing l with
  | nil => cases hd
  | cons a ds ih =>
    rw [List.foldl_cons]
    have hnd' := List.nodup_cons.mp hnd
    rcases List.mem_cons.mp hd with heq | hmem
    · subst heq
      rw [filter_foldl_removeFirstById_ne ds (removeFirstById d l) d hnd'.1,
        filter_removeFirstById_self]
    · have hne : d ≠ a := fun h => hnd'.1 (h ▸ hmem)
      rw [ih hnd'.2 (removeFirstById a l) hmem, filter_removeFirstById_ne a d hne]

theorem sum_count_eq_length (L : List Int) :
    ∑ a ∈ L.toFinset, L.count a = L.length := by
  simp

theorem dedup_toFinset (L : List Int) : L.dedup.toFinset = L.toFinset := by
  ext a
  simp [List.mem_toFinset, List.mem_dedup]

theorem dedup_length_eq_card (L : List Int) :
    L.dedup.length = L.toFinset.card := by
  rw [← dedup_toFinset L]
  exact (List.toFinset_card_of_nodup (List.nodup_dedup L)).symm

theorem dedup_filter_length_eq_card (L : List Int) (p : Int → Bool) :
    (L.dedup.filter p).length = (L.toFinset.filter (fun x => p x = true)).card := by
  rw [← dedup_toFinset L, ← List.toFinset_filter]
  exact (List.toFinset_card_of_nodup ((List.nodup_dedup L).filter p)).symm

theorem finset_surplus_eq (F : Finset Int) (c : Int → ℕ)
    (h1 : ∀ a ∈ F, 1 ≤ c a) (h2 : ∀ a ∈ F, c a ≤ 2) :
    (∑ a ∈ F, c a) - F.card = (F.filter (fun a => 2 ≤ c a)).card := by
  have hsplit := Finset.sum_filter_add_sum_filter_not F (fun a => 2 ≤ c a) c
  have hA : ∑ a ∈ F.filter (fun a => 2 ≤ c a), c a =
      ∑ _a ∈ F.filter (fun a => 2 ≤ c a), 2 := by
    refine Finset.sum_congr rfl ?_
    intro a ha
    have hmem := Finset.mem_filter.mp ha
    exact le_antisymm (h2 a hmem.1) hmem.2
  have hB : ∑ a ∈ F.filter (fun a => ¬2 ≤ c a), c a =
      ∑ _a ∈ F.filter (fun a => ¬2 ≤ c a), 1 := by
    refine Finset.sum_congr rfl ?_
    intro a ha
    have hmem := Finset.mem_filter.mp ha
    have := h1 a hmem.1
    have := hmem.2
    omega
  rw [hA, hB, Finset.sum_const, Finset.sum_const, smul_eq_mul, smul_eq_mul] at hsplit
  have hcard := Finset.filter_card_add_filter_neg_card_eq_card
    (s := F) (fun a => 2 ≤ c a)
  omega

theorem finset_surplus_lt (F : Finset Int) (c : Int → ℕ)
    (h1 : ∀ a ∈ F, 1 ≤ c a) (hx : ∃ a ∈ F, 3 ≤ c a) :
    (F.filter (fun a => 2 ≤ c a)).card < (∑ a ∈ F, c a) - F.card := by
  have hsplit := Finset.sum_filter_add_sum_filter_not F (fun a => 2 ≤ c a) c
  have hB : ∑ a ∈ F.filter (fun a => ¬2 ≤ c a), c a =
      ∑ _a ∈ F.filter (fun a => ¬2 ≤ c a), 1 := by
    refine Finset.sum_congr rfl ?_
    intro a ha
    have hmem := Finset.mem_filter.mp ha
    have := h1 a hmem.1
    have := hmem.2
    omega
  have hlt : ∑ _a ∈ F.filter (fun a => 2 ≤ c a), 2 <
      ∑ a ∈ F.filter (fun a => 2 ≤ c a), c a := by
    obtain ⟨w, hwF, hw3⟩ := hx
    refine Finset.sum_lt_sum ?_ ⟨w, ?_, ?_⟩
    · intro i hi
      exact (Finset.mem_filter.mp hi).2
    · exact Finset.mem_filter.mpr ⟨hwF, by omega⟩
    · omega
  rw [hB, Finset.sum_const, smul_eq_mul] at hsplit
  rw [Finset.sum_const, smul_eq_mul] at hlt
  have hcard := Finset.filter_card_add_filter_neg_card_eq_card
    (s := F) (fun a => 2 ≤ c a)
  omega

theorem count_mem_toFinset_pos (L : List Int) :
    ∀ a ∈ L.toFinset, 1 ≤ L.count a := by
  intro a ha
  exact List.count_pos_iff.mpr (List.mem_toFinset.mp ha)

theorem filter_count_eq (L : List Int) :
    (L.dedup.filter (fun x => 2 ≤ L.count x)).length =
      (L.toFinset.filter (fun a => 2 ≤ L.count a)).card := by
  rw [dedup_filter_length_eq_card]
  congr 1
  refine Finset.filter_congr ?_
  intro a _
  simp

theorem list_surplus_eq (L : List Int) (hle : ∀ x ∈ L, L.count x ≤ 2) :
    L.length - L.dedup.length =
      (L.dedup.filter (fun x => 2 ≤ L.count x)).length := by
  rw [filter_count_eq, dedup_length_eq_card, ← sum_count_eq_length L]
  exact finset_surplus_eq L.toFinset (fun x => L.count x)
    (count_mem_toFinset_pos L)
    (fun a ha => hle a (List.mem_toFinset.mp ha))

theorem list_surplus_lt (L : List Int) (hx : ∃ x ∈ L, 3 ≤ L.count x) :
    (L.dedup.filter (fun x => 2 ≤ L.count x)).length <
      L.length - L.dedup.length := by
  rw [filter_count_eq, dedup_length_eq_card, ← sum_count_eq_length L]
  obtain ⟨w, hwL, hw3⟩ := hx
  exact finset_surplus_lt L.toFinset (fun x => L.count x)
    (count_mem_toFinset_pos L) ⟨w, List.mem_toFinset.mpr hwL, hw3⟩

theorem dupIds_mem_ids (l : List (Int × α)) :
    ∀ d ∈ dupIds l, d ∈ ids l := by
  intro d hd
  exact (mem_dupIds.mp hd).1

/-- C1: on a detection table in which every duplicated `bal_id` occurs
exactly twice, duplicate repair succeeds (the integrity assertion passes),
the result is a subsequence of the input in which, for each duplicated
identifier, exactly the first positional occurrence is gone and the later
occurrence kept, rows with non-duplicated identifiers are untouched, every
identifier of the input occurs exactly once, and the row count drops by
exactly the number of duplicated identifiers. -/
theorem check_for_duplicates_correct (l : List (Int × α))
    (hle : ∀ x ∈ ids l, (ids l).count x ≤ 2) :
    ∃ r, check_for_duplicates l = Except.ok r ∧
      r.Sublist l ∧
      (∀ x ∈ ids l, (ids r).count x = 1) ∧
      r.length = l.length - (dupIds l).length ∧
      (∀ d ∈ dupIds l, r.filter (fun p => p.1 == d) =
        (l.filter (fun p => p.1 == d)).tail) ∧
      (∀ d : Int, d ∉ dupIds l → r.filter (fun p => p.1 == d) =
        l.filter (fun p => p.1 == d)) := by
  by_cases hbranch : (ids l).dedup.length = l.length
  · -- no duplicates: the identifier column is already duplicate-free
    have hids_len : (ids l).length = l.length := List.length_map l Prod.fst
    have hdedup_eq : (ids l).dedup = ids l :=
      (List.dedup_sublist (ids l)).eq_of_length (by rw [hbranch, hids_len])
    have hnodup : (ids l).Nodup := hdedup_eq ▸ List.nodup_dedup (ids l)
    have hdup_nil : dupIds l = [] := by
      rw [List.eq_nil_iff_forall_not_mem]
      intro d hd
      have h2 := (mem_dupIds.mp hd).2
      have h1 := List.nodup_iff_count_le_one.mp hnodup d
      omega
    refine ⟨l, ?_, List.Sublist.refl l, ?_, ?_, ?_, fun d _ => rfl⟩
    · rw [check_for_duplicates, if_pos hbranch]
    · intro x hx
      have h1 := List.nodup_iff_count_le_one.mp hnodup x
      have h2 := List.count_pos_iff.mpr hx
      omega
    · rw [hdup_nil]
      rfl
    · intro d hd
      rw [hdup_nil] at hd
      cases hd
  · -- at least one duplicate: the repair loop runs
    set r := (dupIds l).foldl (fun acc d => removeFirstById d acc) l with hr
    have hnd := dupIds_nodup l
    have hmemL : ∀ d ∈ dupIds l, d ∈ ids l := dupIds_mem_ids l
    have hids_len : (ids l).length = l.length := List.length_map l Prod.fst
    have hids_r : ids r = (dupIds l).foldl List.erase (ids l) :=
      ids_foldl_removeFirstById (dupIds l) l
    have hrlen : r.length = l.length - (dupIds l).length := by
      have h1 : r.length = (ids r).length := (List.length_map r Prod.fst).symm
      rw [h1, hids_r, length_foldl_erase (dupIds l) (ids l) hnd hmemL, hids_len]
    have hsurp : l.length - (ids l).dedup.length = (dupIds l).length := by
      have h := list_surplus_eq (ids l)
        (fun x hx => hle x hx)
      rw [hids_len] at h
      exact h.symm ▸ rfl
    have hassert : r.length = l.length - (l.length - (ids l).dedup.length) := by
      rw [hrlen, hsurp]
    refine ⟨r, ?_, foldl_removeFirstById_sublist (dupIds l) l, ?_, hrlen, ?_, ?_⟩
    · rw [check_for_duplicates, if_neg hbranch]
      simp only [← hr]
      rw [if_pos hassert]
    · intro x hx
      have hcnt : (ids r).count x =
          (ids l).count x - (if x ∈ dupIds l then 1 else 0) := by
        rw [hids_r]
        exact count_foldl_erase (dupIds l) (ids l) hnd x
      have hpos : 1 ≤ (ids l).count x := List.count_pos_iff.mpr hx
      have hle2 : (ids l).count x ≤ 2 := hle x hx
      by_cases hxd : x ∈ dupIds l
      · have h2 := (mem_dupIds.mp hxd).2
        rw [hcnt, if_pos hxd]
        omega
      · have h1 : ¬2 ≤ (ids l).count x := fun h2 =>
          hxd (mem_dupIds.mpr ⟨hx, h2⟩)
        rw [hcnt, if_neg hxd]
        omega
    · intro d hd
      exact filter_foldl_removeFirstById_dup (dupIds l) hnd l d hd
    · intro d hd
      exact filter_foldl_removeFirstById_ne (dupIds l) l d hd

/-- Witness for C1 on a table with identifiers `[1, 2, 2, 3]`: repair keeps
the later occurrence of id 2 (payload 30, not 20) and drops the row count
from 4 to 3. -/
theorem check_for_duplicates_correct_witness :
    check_for_duplicates
        [((1 : Int), (10 : Nat)), (2, 20), (2, 30), (3, 40)] =
      Except.ok [((1 : Int), (10 : Nat)), (2, 30), (3, 40)] ∧
    ∃ r, check_for_duplicates
        [((1 : Int), (10 : Nat)), (2, 20), (2, 30), (3, 40)] = Except.ok r ∧
      r.Sublist [((1 : Int), (10 : Nat)), (2, 20), (2, 30), (3, 40)] ∧
      (∀ x ∈ ids [((1 : Int), (10 : Nat)), (2, 20), (2, 30), (3, 40)],
        (ids r).count x = 1) ∧
      r.length = ([((1 : Int), (10 : Nat)), (2, 20), (2, 30), (3, 40)]).length -
        (dupIds [((1 : Int), (10 : Nat)), (2, 20), (2, 30), (3, 40)]).length ∧
      (∀ d ∈ dupIds [((1 : Int), (10 : Nat)), (2, 20), (2, 30), (3, 40)],
        r.filter (fun p => p.1 == d) =
          (([((1 : Int), (10 : Nat)), (2, 20), (2, 30), (3, 40)]).filter
            (fun p => p.1 == d)).tail) ∧
      (∀ d : Int, d ∉ dupIds [((1 : Int), (10 : Nat)), (2, 20), (2, 30), (3, 40)] →
        r.filter (fun p => p.1 == d) =
          ([((1 : Int), (10 : Nat)), (2, 20), (2, 30), (3, 40)]).filter
            (fun p => p.1 == d)) :=
  ⟨rfl,
   check_for_duplicates_correct
     [((1 : Int), (10 : Nat)), (2, 20), (2, 30), (3, 40)] (by decide)⟩

/-- C2: whenever some identifier has more than one surplus row (occurs at
least three times), duplicate repair raises the integrity error — the
`AssertionError` standing for `DuplicateRepairIntegrityError` — instead of
returning an under- or over-corrected table. -/
theorem check_for_duplicates_raises (l : List (Int × α))
    (hx : ∃ x ∈ ids l, 3 ≤ (ids l).count x) :
    check_for_duplicates l = Except.error Err.dupIntegrity := by
  obtain ⟨x, hxL, hx3⟩ := hx
  have hids_len : (ids l).length = l.length := List.length_map l Prod.fst
  have hnodup : ¬(ids l).Nodup := by
    intro h
    have := List.nodup_iff_count_le_one.mp h x
    omega
  have hbranch : (ids l).dedup.length ≠ l.length := by
    intro h
    have heq : (ids l).dedup = ids l :=
      (List.dedup_sublist (ids l)).eq_of_length (by rw [h, hids_len])
    exact hnodup (heq ▸ List.nodup_dedup (ids l))
  set r := (dupIds l).foldl (fun acc d => removeFirstById d acc) l with hr
  have hnd := dupIds_nodup l
  have hmemL : ∀ d ∈ dupIds l, d ∈ ids l := dupIds_mem_ids l
  have hrlen : r.length = l.length - (dupIds l).length := by
    have h1 : r.length = (ids r).length := (List.length_map r Prod.fst).symm
    rw [h1, ids_foldl_removeFirstById (dupIds l) l,
      length_foldl_erase (dupIds l) (ids l) hnd hmemL, hids_len]
  have hstrict : (dupIds l).length < l.length - (ids l).dedup.length := by
    have h := list_surplus_lt (ids l) ⟨x, hxL, hx3⟩
    rw [hids_len] at h
    exact h
  have hdedup_le : (ids l).dedup.length ≤ l.length := by
    have := (List.dedup_sublist (ids l)).length_le
    omega
  have hassert : r.length ≠ l.length - (l.length - (ids l).dedup.length) := by
    rw [hrlen]
    omega
  rw [check_for_duplicates, if_neg hbranch]
  simp only [← hr]
  rw [if_neg hassert]

/-- Witness for C2 on a table with identifiers `[1, 2, 2, 2]` (two surplus
rows for id 2). -/
theorem check_for_duplicates_raises_witness :
    check_for_duplicates [((1 : Int), (10 : Nat)), (2, 20), (2, 30), (2, 40)] =
      Except.error Err.dupIntegrity :=
  check_for_duplicates_raises
    [((1 : Int), (10 : Nat)), (2, 20), (2, 30), (2, 40)] (by decide)

/-! ### C9: idempotence of `calc_mags` -/

theorem hasSubstr_flux_tail (x : Char) :
    hasSubstr ['f', 'l', 'u', 'x'] [x] = false := by
  show ((('f' == x) && false) || false) = false
  rw [Bool.and_false, Bool.or_false]

theorem hasFluxSub_magKey (b : Char) : hasFluxSub (magKey b) = false := by
  show hasSubstr ['f', 'l', 'u', 'x'] [b.toLower] = false
  exact hasSubstr_flux_tail b.toLower

theorem magKey_ne_fluxKey (b b' : Char) : magKey b ≠ fluxKey b' := by
  intro h
  have h0 : ('m' : Char) = 'f' := congrArg (fun l => l.headD 'z') h
  exact absurd h0 (by decide)

theorem magKey_inj {b b' : Char} (h : magKey b = magKey b') : b = b' :=
  congrArg (fun l => l.getLastD 'z') h

theorem fluxKey_getLastD (b : Char) : (fluxKey b).getLastD 'a' = b := rfl

theorem eq_of_mem_of_nodup_names (t : MTable) (hnd : (mcolnames t).Nodup)
    {c c' : ColName × List FVal} (hc : c ∈ t) (hc' : c' ∈ t) (h : c.1 = c'.1) :
    c = c' := by
  induction t with
  | nil => cases hc
  | cons a as ih =>
    have hnd' : a.1 ∉ mcolnames as ∧ (mcolnames as).Nodup := by
      have := hnd
      rw [mcolnames, List.map_cons, List.nodup_cons] at this
      exact this
    rcases List.mem_cons.mp hc with rfl | hcs
    · rcases List.mem_cons.mp hc' with rfl | hcs'
      · rfl
      · exact absurd (List.mem_map.mpr ⟨c', hcs', h.symm⟩) hnd'.1
    · rcases List.mem_cons.mp hc' with rfl | hcs'
      · exact absurd (List.mem_map.mpr ⟨c, hcs, h⟩) hnd'.1
      · exact ih hnd'.2 hcs hcs'

theorem mem_colnames_of_any {t : MTable} {n : ColName}
    (h : t.any (fun c => c.1 == n) = true) : n ∈ mcolnames t := by
  rcases List.any_eq_true.mp h with ⟨c, hc, hcn⟩
  exact List.mem_map.mpr ⟨c, hc, by simpa using hcn⟩

theorem any_of_mem_colnames {t : MTable} {n : ColName}
    (h : n ∈ mcolnames t) : t.any (fun c => c.1 == n) = true := by
  rcases List.mem_map.mp h with ⟨c, hc, hcn⟩
  exact List.any_eq_true.mpr ⟨c, hc, by simpa using hcn⟩

theorem mcolnames_setColumn (t : MTable) (n : ColName) (v : List FVal) :
    mcolnames (setColumn t n v) =
      if n ∈ mcolnames t then mcolnames t else mcolnames t ++ [n] := by
  by_cases h : t.any (fun c => c.1 == n) = true
  · rw [setColumn, if_pos h, if_pos (mem_colnames_of_any h)]
    rw [mcolnames, List.map_map, mcolnames]
    refine List.map_congr_left ?_
    intro c _
    by_cases hcn : c.1 = n
    · simp [hcn]
    · simp [hcn]
  · have hnot : n ∉ mcolnames t := fun hmem => h (any_of_mem_colnames hmem)
    rw [setColumn, if_neg h, if_neg hnot, mcolnames, List.map_append]
    rfl

theorem nodup_mcolnames_setColumn (t : MTable) (n : ColName) (v : List FVal)
    (hnd : (mcolnames t).Nodup) : (mcolnames (setColumn t n v)).Nodup := by
  rw [mcolnames_setColumn]
  by_cases h : n ∈ mcolnames t
  · rw [if_pos h]; exact hnd
  · rw [if_neg h]
    rw [List.nodup_append]
    exact ⟨hnd, List.nodup_singleton n, by
      intro a ha hax
      rw [List.mem_singleton] at hax
      exact h (hax ▸ ha)⟩

theorem find?_setColumn_self (t : MTable) (n : ColName) (v : List FVal) :
    (setColumn t n v).find? (fun c => c.1 == n) = some (n, v) := by
  rw [setColumn]
  by_cases h : t.any (fun c => c.1 == n) = true
  · rw [if_pos h]
    induction t with
    | nil => simp at h
    | cons c cs ih =>
      rw [List.map_cons]
      by_cases hc : c.1 = n
      · rw [show (if (c.1 == n) = true then (n, v) else c) = (n, v) by simp [hc]]
        rw [List.find?_cons]
        simp
      · rw [show (if (c.1 == n) = true then (n, v) else c) = c by simp [hc]]
        rw [List.find?_cons]
        have hcn : (c.1 == n) = false := by simpa using hc
        rw [hcn]
        exact ih (by simpa [List.any_cons, hcn] using h)
  · rw [if_neg h]
    induction t with
    | nil =>
      rw [List.nil_append, List.find?_cons]
      simp
    | cons c cs ih =>
      have hcn : (c.1 == n) = false := by
        by_contra hc
        exact h (List.any_eq_true.mpr
          ⟨c, List.mem_cons_self c cs, by simpa using hc⟩)
      rw [List.cons_append, List.find?_cons, hcn]
      exact ih (fun hany => h (by
        rcases List.any_eq_true.mp hany with ⟨d, hd, hdn⟩
        exact List.any_eq_true.mpr ⟨d, List.mem_cons_of_mem c hd, hdn⟩))

theorem mgetColumn_setColumn_self (t : MTable) (n : ColName) (v : List FVal) :
    mgetColumn (setColumn t n v) n = some v := by
  rw [mgetColumn, find?_setColumn_self]
  rfl

theorem mgetColumn_setColumn_ne (t : MTable) (n m : ColName) (hm : m ≠ n)
    (v : List FVal) :
    mgetColumn (setColumn t n v) m = mgetColumn t m := by
  have hnm : (n == m) = false := by
    simp only [beq_eq_false_iff_ne, ne_eq]
    exact fun h => hm h.symm
  rw [setColumn]
  by_cases h : t.any (fun c => c.1 == n) = true
  · rw [if_pos h]
    rw [mgetColumn, mgetColumn]
    clear h
    induction t with
    | nil => rfl
    | cons c cs ih =>
      rw [List.map_cons, List.find?_cons, List.find?_cons]
      by_cases hc : c.1 = n
      · rw [show (if (c.1 == n) = true then (n, v) else c) = (n, v) by simp [hc]]
        have hcm : (c.1 == m) = false := by
          simp only [beq_eq_false_iff_ne, ne_eq]
          intro hcontra
          exact hm (by rw [← hcontra, hc])
        rw [show ((n, v).1 == m) = false from hnm, hcm]
        exact ih
      · rw [show (if (c.1 == n) = true then (n, v) else c) = c by simp [hc]]
        cases hcm : (c.1 == m) with
        | true => rfl
        | false => exact ih
  · rw [if_neg h]
    rw [mgetColumn, mgetColumn]
    clear h
    induction t with
    | nil =>
      rw [List.nil_append, List.find?_cons]
      rw [show (((n, v) : ColName × List FVal).1 == m) = false from hnm]
    | cons c cs ih =>
      rw [List.cons_append, List.find?_cons, List.find?_cons]
      cases hcm : (c.1 == m) with
      | true => rfl
      | false => exact ih

theorem setColumn_eq_self (t : MTable) (hnd : (mcolnames t).Nodup)
    (n : ColName) (v : List FVal) (h : mgetColumn t n = some v) :
    setColumn t n v = t := by
  rw [mgetColumn] at h
  cases hf : t.find? (fun c => c.1 == n) with
  | none => rw [hf] at h; cases h
  | some c0 =>
    rw [hf] at h
    have hc0v : c0.2 = v := Option.some.inj h
    have hc0n : c0.1 = n := by simpa using List.find?_some hf
    have hc0mem : c0 ∈ t := List.mem_of_find?_eq_some hf
    have hany : t.any (fun c => c.1 == n) = true :=
      List.any_eq_true.mpr ⟨c0, hc0mem, by simpa using hc0n⟩
    rw [setColumn, if_pos hany]
    have hmap : ∀ c ∈ t, (if (c.1 == n) = true then (n, v) else c) = c := by
      intro c hc
      by_cases hcn : c.1 = n
      · rw [if_pos (by simpa using hcn)]
        have : c = c0 :=
          eq_of_mem_of_nodup_names t hnd hc hc0mem (by rw [hcn, hc0n])
        rw [this, ← hc0n, ← hc0v]
      · rw [if_neg (by simpa using hcn)]
    calc t.map (fun c => if (c.1 == n) = true then (n, v) else c)
        = t.map (fun c => c) := List.map_congr_left hmap
      _ = t := List.map_id t

theorem mgetColumn_isSome_of_mem (t : MTable) (n : ColName)
    (h : n ∈ mcolnames t) : ∃ col, mgetColumn t n = some col := by
  rcases List.mem_map.mp h with ⟨c, hc, hcn⟩
  have : (t.find? (fun c => c.1 == n)).isSome = true :=
    List.find?_isSome.mpr ⟨c, hc, by simpa using hcn⟩
  cases hf : t.find? (fun c => c.1 == n) with
  | none => rw [hf] at this; cases this
  | some c0 => exact ⟨c0.2, by simp [mgetColumn, hf]⟩

theorem calc_step_noop (bs : List Char) :
    ∀ acc : MTable, (mcolnames acc).Nodup →
      (∀ b ∈ bs, ∃ col, mgetColumn acc (fluxKey b) = some col ∧
          mgetColumn acc (magKey b) = some (col.map flux2magF)) →
      bs.foldlM (fun acc b => (mgetColumn acc (fluxKey b)).map
        (fun col => setColumn acc (magKey b) (col.map flux2magF))) acc =
        some acc := by
  induction bs with
  | nil => intro acc _ _; rfl
  | cons b bs ih =>
    intro acc hnd hcols
    obtain ⟨col, hflux, hmag⟩ := hcols b (List.mem_cons_self b bs)
    simp only [List.foldlM_cons]
    rw [hflux, Option.map_some']
    have hset : setColumn acc (magKey b) (col.map flux2magF) = acc :=
      setColumn_eq_self acc hnd (magKey b) (col.map flux2magF) hmag
    rw [hset]
    exact ih acc hnd (fun b' hb' => hcols b' (List.mem_cons_of_mem b hb'))

theorem calc_step_run (bs : List Char) :
    ∀ acc : MTable, (mcolnames acc).Nodup → bs.Nodup →
      (∀ b ∈ bs, fluxKey b ∈ mcolnames acc) →
      ∃ res, bs.foldlM (fun acc b => (mgetColumn acc (fluxKey b)).map
          (fun col => setColumn acc (magKey b) (col.map flux2magF))) acc =
            some res ∧
        (mcolnames res).Nodup ∧
        (∀ m : ColName, (∀ b ∈ bs, m ≠ magKey b) →
          mgetColumn res m = mgetColumn acc m) ∧
        (∀ b ∈ bs, ∀ col, mgetColumn acc (fluxKey b) = some col →
          mgetColumn res (magKey b) = some (col.map flux2magF)) ∧
        (mcolnames res).filter hasFluxSub =
          (mcolnames acc).filter hasFluxSub := by
  induction bs with
  | nil =>
    intro acc hnd _ _
    exact ⟨acc, rfl, hnd, fun m _ => rfl,
      fun b hb => absurd hb (List.not_mem_nil b), rfl⟩
  | cons b bs ih =>
    intro acc hnd hbnd hmem
    have hbmem : fluxKey b ∈ mcolnames acc := hmem b (List.mem_cons_self b bs)
    obtain ⟨col0, hcol0⟩ := mgetColumn_isSome_of_mem acc (fluxKey b) hbmem
    have hbnd' := List.nodup_cons.mp hbnd
    have hnd1 : (mcolnames (setColumn acc (magKey b) (col0.map flux2magF))).Nodup :=
      nodup_mcolnames_setColumn acc _ _ hnd
    have hmem1 : ∀ b' ∈ bs,
        fluxKey b' ∈ mcolnames (setColumn acc (magKey b) (col0.map flux2magF)) := by
      intro b' hb'
      rw [mcolnames_setColumn]
      by_cases hm : magKey b ∈ mcolnames acc
      · rw [if_pos hm]; exact hmem b' (List.mem_cons_of_mem b hb')
      · rw [if_neg hm]
        exact List.mem_append_left _ (hmem b' (List.mem_cons_of_mem b hb'))
    obtain ⟨res, hres, hndres, hpres, hmagv, hfilter⟩ :=
      ih (setColumn acc (magKey b) (col0.map flux2magF)) hnd1 hbnd'.2 hmem1
    refine ⟨res, ?_, hndres, ?_, ?_, ?_⟩
    · simp only [List.foldlM_cons]
      rw [hcol0, Option.map_some']
      exact hres
    · intro m hm
      have hm_b : m ≠ magKey b := hm b (List.mem_cons_self b bs)
      have hm_bs : ∀ b' ∈ bs, m ≠ magKey b' :=
        fun b' hb' => hm b' (List.mem_cons_of_mem b hb')
      rw [hpres m hm_bs, mgetColumn_setColumn_ne acc (magKey b) m hm_b]
    · intro b' hb' col hcol
      rcases List.mem_cons.mp hb' with rfl | hb's
      · have hcc : col = col0 := by
          rw [hcol0] at hcol
          exact (Option.some.inj hcol).symm
        subst hcc
        have hnotin : ∀ b'' ∈ bs, magKey b' ≠ magKey b'' := by
          intro b'' hb'' heq
          have hb'b'' := magKey_inj heq
          subst hb'b''
          exact hbnd'.1 hb''
        rw [hpres (magKey b') hnotin, mgetColumn_setColumn_self]
      · have hne : fluxKey b' ≠ magKey b :=
          fun h => magKey_ne_fluxKey b b' h.symm
        have hcol1 : mgetColumn (setColumn acc (magKey b) (col0.map flux2magF))
            (fluxKey b') = some col := by
          rw [mgetColumn_setColumn_ne acc (magKey b) (fluxKey b') hne, hcol]
        exact hmagv b' hb's col hcol1
    · rw [hfilter, mcolnames_setColumn]
      by_cases hm : magKey b ∈ mcolnames acc
      · rw [if_pos hm]
      · rw [if_neg hm, List.filter_append]
        rw [show List.filter hasFluxSub [magKey b] = [] by
          simp [List.filter, hasFluxSub_magKey b]]
        rw [List.append_nil]

/-- C9: `calc_mags` is idempotent on any Mcal table with duplicate-free
column names in which every column whose name contains `'flux'`
case-insensitively is literally named `flux_<single character>`: it
succeeds, and running it a second time returns the very same table — the
same `mag_<band>` columns with identical values and no additional columns.
In particular the double invocation performed by `BalrogMcalCatalog`
(`McalCatalog.__init__` and then `_load_catalog`, lines 281-282) produces
the table a single invocation would. -/
theorem calc_mags_idempotent (t : MTable)
    (hnd : (mcolnames t).Nodup)
    (hflux : ∀ c ∈ mcolnames t, hasFluxSub c = true →
      c.dropLast = "flux_".toList) :
    ∃ t1, calc_mags t = some t1 ∧ calc_mags t1 = some t1 := by
  have hkey : ∀ f ∈ (mcolnames t).filter hasFluxSub,
      f = fluxKey (f.getLastD 'a') := by
    intro f hf
    have hf' := List.mem_filter.mp hf
    have hdrop := hflux f hf'.1 hf'.2
    rcases List.eq_nil_or_concat f with rfl | ⟨init, x, hx⟩
    · exact absurd hdrop (by decide)
    · subst hx
      rw [List.concat_eq_append] at hdrop ⊢
      rw [List.dropLast_concat] at hdrop
      subst hdrop
      rfl
  set bands := ((mcolnames t).filter hasFluxSub).map (fun f => f.getLastD 'a')
    with hbands
  have hbmem : ∀ b ∈ bands, fluxKey b ∈ mcolnames t := by
    intro b hb
    rcases List.mem_map.mp hb with ⟨f, hf, hfb⟩
    rw [← hfb, ← hkey f hf]
    exact (List.mem_filter.mp hf).1
  have hbnodup : bands.Nodup := by
    refine List.Nodup.map_on ?_ (hnd.filter hasFluxSub)
    intro x hx y hy hxy
    rw [hkey x hx, hkey y hy, hxy]
  obtain ⟨t1, ht1, hnd1, hpres, hmagv, hfilter⟩ :=
    calc_step_run bands t hnd hbnodup hbmem
  have hcalc1 : calc_mags t = some t1 := ht1
  refine ⟨t1, hcalc1, ?_⟩
  have hcols1 : ∀ b ∈ bands, ∃ col, mgetColumn t1 (fluxKey b) = some col ∧
      mgetColumn t1 (magKey b) = some (col.map flux2magF) := by
    intro b hb
    obtain ⟨col, hcol⟩ := mgetColumn_isSome_of_mem t (fluxKey b) (hbmem b hb)
    have hfluxne : ∀ b' ∈ bands, fluxKey b ≠ magKey b' :=
      fun b' _ h => magKey_ne_fluxKey b' b h.symm
    refine ⟨col, ?_, hmagv b hb col hcol⟩
    rw [hpres (fluxKey b) hfluxne, hcol]
  have hnoop := calc_step_noop bands t1 hnd1 hcols1
  have hunfold : calc_mags t1 =
      (((mcolnames t1).filter hasFluxSub).map (fun f => f.getLastD 'a')).foldlM
        (fun acc b => (mgetColumn acc (fluxKey b)).map
          (fun col => setColumn acc (magKey b) (col.map flux2magF))) t1 := rfl
  rw [hunfold, hfilter]
  exact hnoop

/-- Witness for C9 on a two-column table holding one flux column
`flux_g` and one unrelated column. -/
theorem calc_mags_idempotent_witness :
    ∃ t1, calc_mags [("flux_g".toList, [FVal.fin 1]),
        ("bal_id".toList, [FVal.fin 2])] = some t1 ∧
      calc_mags t1 = some t1 :=
  calc_mags_idempotent
    [("flux_g".toList, [FVal.fin 1]), ("bal_id".toList, [FVal.fin 2])]
    (by decide) (by decide)

end Balutils
